import Mathlib

/-!
Shallow embedding of the admission and transfer-ledger core of the
armory-mirror repository.

The repository ships the e2e/unit test suites, a development guide, and one
repository class (`EntityDataStoreRepository`); the service bodies
themselves (`TransferTrackingService.track` / `findByClientId`, client
registration, the rate limiter) are not present in the sources, so those
operations are modelled from the specification (`spec.md`), as marked on
each definition.  `getLatestDataStore` / `getLatestVersion` are embedded
directly from
`src/apps/armory/src/managed-data-store/persistence/repository/entity-data-store.repository.ts`.
-/

namespace Armory

/-! ### Exact decimal string codec

Modelled from the spec: the Transfer Ledger Service "serializes amount and
every rate value to an exact string form before the write (never through a
floating-point intermediate)" and decodes the stored row back to the
originally-typed representation.  The service body is absent from the
repository (only its tests are present), so the codec is modelled here: a
signed decimal digit string for arbitrary-precision integers. -/

/-- Character for a single decimal digit: digit `d` maps to code point `d + 48`. -/
def digitChar (d : Nat) : Char := Char.ofNat (d + 48)

/-- Numeric value of a decimal digit character. -/
def charDigit (c : Char) : Nat := c.toNat - 48

/-- Little-endian decimal digits of a natural number, with explicit fuel so
that the kernel can evaluate it. -/
def natDigitsAux : Nat → Nat → List Nat
  | 0, _ => []
  | _ + 1, 0 => []
  | fuel + 1, n + 1 => ((n + 1) % 10) :: natDigitsAux fuel ((n + 1) / 10)

/-- Little-endian decimal digits of a natural number. -/
def natDigits (n : Nat) : List Nat := natDigitsAux n n

/-- Modelled from the spec: decimal rendering of a natural number
(big-endian digit characters; `0` renders as `"0"`). -/
def natChars (n : Nat) : List Char :=
  if n = 0 then ['0'] else ((natDigits n).map digitChar).reverse

/-- Modelled from the spec: parse a decimal digit string back to a natural
number; empty or non-digit input is rejected. -/
def parseNatChars (l : List Char) : Option Nat :=
  if l ≠ [] ∧ l.all Char.isDigit then
    some (Nat.ofDigits 10 ((l.map charDigit).reverse))
  else none

/-- Modelled from the spec: signed decimal rendering of an
arbitrary-precision integer (the missing service stores `amount.toString()`). -/
def intChars (x : Int) : List Char :=
  if x < 0 then '-' :: natChars x.natAbs else natChars x.natAbs

/-- String-encoded form of an arbitrary-precision integer. -/
def encodeInt (x : Int) : String := ⟨intChars x⟩

/-- Modelled from the spec: parse a signed decimal string back to an
arbitrary-precision integer. -/
def parseIntChars : List Char → Option Int
  | [] => none
  | c :: rest =>
    if c = '-' then (parseNatChars rest).map (fun n => -(Int.ofNat n))
    else (parseNatChars (c :: rest)).map (fun n => Int.ofNat n)

/-- Decode the string-encoded form of an arbitrary-precision integer. -/
def decodeInt (s : String) : Option Int := parseIntChars s.data

/-- Arbitrary-precision decimal (a conversion-rate value): mantissa `m`
scaled down by `10 ^ e`.  Modelled from the spec: rate values are
"arbitrary-precision decimal". -/
structure Dec where
  m : Int
  e : Nat
deriving DecidableEq, Repr

/-- Modelled from the spec: exact string form of a decimal rate value
(mantissa string, scale string). -/
def encodeDec (d : Dec) : String × String := (encodeInt d.m, ⟨natChars d.e⟩)

/-- Decode the string-encoded form of a decimal rate value. -/
def decodeDec (p : String × String) : Option Dec :=
  match decodeInt p.1, parseNatChars p.2.data with
  | some m, some e => some ⟨m, e⟩
  | _, _ => none

/-! ### Transfer ledger data model

Modelled from the spec §3: a transfer carries a tenant identifier, chain
identifier, arbitrary-precision integer amount (may be zero or negative), a
currency-code → optional rate mapping, and a creation timestamp.  A
creation timestamp is recorded as an absolute instant (epoch milliseconds)
together with the wall-clock offset it was recorded in; comparisons must
use the instant only. -/

/-- Timestamp: absolute instant in epoch milliseconds plus the recording
timezone offset in minutes. -/
structure Instant where
  epochMillis : Int
  offsetMin : Int
deriving DecidableEq, Repr

/-- Typed transfer record, as handed to and returned by the ledger. -/
structure Transfer where
  id : String
  clientId : String
  chainId : Nat
  amount : Int
  rates : List (String × Option Dec)
  createdAt : Instant
deriving DecidableEq, Repr

/-- Stored (string-encoded) transfer row: amount and rate values live in the
durable store in their exact string form; a null rate stays null. -/
structure StoredTransfer where
  id : String
  clientId : String
  chainId : Nat
  amount : String
  rates : List (String × Option (String × String))
  createdAt : Instant
deriving DecidableEq, Repr

/-- Modelled from the spec: encode a transfer for the durable store — the
amount and every present rate value go to their exact string form, absent
(null) rate values stay absent. -/
def encodeTransfer (t : Transfer) : StoredTransfer :=
  ⟨t.id, t.clientId, t.chainId, encodeInt t.amount,
    t.rates.map (fun p => (p.1, p.2.map encodeDec)), t.createdAt⟩

/-- Decode one stored rate entry value; a stored null remains null (never
coerced to `0`). -/
def decodeRateVal : Option (String × String) → Option (Option Dec)
  | none => some none
  | some p => (decodeDec p).map some

/-- Decode the stored rates mapping entry by entry. -/
def decodeRates : List (String × Option (String × String)) → Option (List (String × Option Dec))
  | [] => some []
  | (k, v) :: rest =>
    match decodeRateVal v, decodeRates rest with
    | some d, some ds => some ((k, d) :: ds)
    | _, _ => none

/-- Modelled from the spec: decode a stored row back to the
originally-typed representation (integer amount, decimal rates). -/
def decodeStored (s : StoredTransfer) : Option Transfer :=
  match decodeInt s.amount, decodeRates s.rates with
  | some a, some rs => some ⟨s.id, s.clientId, s.chainId, a, rs, s.createdAt⟩
  | _, _ => none

/-- Modelled from the spec: `track` serializes the transfer to its exact
string form, inserts one row, then decodes the stored row back for the
return value. -/
def track (db : List StoredTransfer) (t : Transfer) :
    List StoredTransfer × Option Transfer :=
  let row := encodeTransfer t
  (db ++ [row], decodeStored row)

/-- Ascending order on creation timestamps, compared as absolute instants
only — the recording offset is ignored. -/
def byCreatedAt (a b : Transfer) : Prop :=
  a.createdAt.epochMillis ≤ b.createdAt.epochMillis

instance : DecidableRel byCreatedAt := fun a b =>
  inferInstanceAs (Decidable (a.createdAt.epochMillis ≤ b.createdAt.epochMillis))

instance : IsTotal Transfer byCreatedAt :=
  ⟨fun a b => Int.le_total a.createdAt.epochMillis b.createdAt.epochMillis⟩

instance : IsTrans Transfer byCreatedAt :=
  ⟨fun _ _ _ h1 h2 => le_trans h1 h2⟩

/-- Modelled from the spec: `findByClientId` returns all transfers of the
tenant, decoded, ordered ascending by creation timestamp with ties broken
stably by insertion order. -/
def findByClientId (db : List StoredTransfer) (c : String) : List Transfer :=
  List.insertionSort byCreatedAt
    ((db.filter (fun s => s.clientId == c)).filterMap decodeStored)

/-- Replace the recording offset of a transfer's timestamp, leaving the
absolute instant unchanged. -/
def withOffset (t : Transfer) (o : Int) : Transfer :=
  { t with createdAt := ⟨t.createdAt.epochMillis, o⟩ }

/-! ### Client admission

Modelled from the spec §4.1: `register` generates a fresh signer key pair,
optionally appends the new public key to both signing-key sets, hashes the
secret, and attempts a single atomic insert keyed by the tenant identifier;
a duplicate surfaces as a 400-class "Client already exist" failure.  The
service body is absent from the repository (only its e2e tests are
present). -/

/-- JSON Web Key, reduced to the parts the claims speak about: the public
coordinates `x` and the private scalar `d` (present only on private keys,
see RFC 7517 appendix A.2). -/
structure Jwk where
  x : String
  d : Option String
deriving DecidableEq, Repr

/-- Public half of a key: the private `d` component is dropped. -/
def publicJwk (k : Jwk) : Jwk := ⟨k.x, none⟩

/-- One data-store source descriptor with its signing-key set. -/
structure DataStoreCfg where
  url : String
  keys : List Jwk
deriving DecidableEq, Repr

/-- Registration request body. -/
structure CreateClientReq where
  clientId : String
  clientSecret : Option String
  entityStore : DataStoreCfg
  policyStore : DataStoreCfg
  allowSelfSignedData : Bool
deriving DecidableEq, Repr

/-- Persisted client row: hashed secret, encrypted-at-rest private signer
key, and the two data-store configurations. -/
structure ClientRow where
  clientId : String
  secretHash : String
  signerPrivateKey : Jwk
  entityStore : DataStoreCfg
  policyStore : DataStoreCfg
deriving DecidableEq, Repr

/-- Signer as rendered outward: public key only. -/
structure SignerView where
  publicKey : Jwk
deriving DecidableEq, Repr

/-- Success response body: the client record with the plaintext secret and
the public-only signer. -/
structure ClientView where
  clientId : String
  clientSecret : String
  signer : SignerView
  entityStore : DataStoreCfg
  policyStore : DataStoreCfg
deriving DecidableEq, Repr

/-- Outcome of a registration call. -/
inductive RegisterResult where
  | created : ClientView → RegisterResult
  | alreadyExists : String → RegisterResult
deriving DecidableEq, Repr

/-- HTTP-style status class of a registration outcome. -/
def statusOf : RegisterResult → Nat
  | .created _ => 201
  | .alreadyExists _ => 400

/-- Modelled from the spec: one-way hash of a secret (opaque model). -/
def hashSecret (s : String) : String := "hashed:" ++ s

/-- Modelled from the spec: sequential `register` — checks uniqueness of the
tenant identifier, appends the fresh signer public key to both signing-key
sets when `allowSelfSignedData` is set, stores the hashed secret, and
returns the one-time plaintext secret with a public-only signer.
`genSecret` is the freshly generated secret (used when the caller supplies
none) and `genPriv` the freshly generated signer private key. -/
def register (db : List ClientRow) (req : CreateClientReq)
    (genSecret : String) (genPriv : Jwk) : List ClientRow × RegisterResult :=
  if req.clientId ∈ db.map (fun r => r.clientId) then
    (db, .alreadyExists "Client already exist")
  else
    let pub := publicJwk genPriv
    let entityKeys :=
      if req.allowSelfSignedData then req.entityStore.keys ++ [pub]
      else req.entityStore.keys
    let policyKeys :=
      if req.allowSelfSignedData then req.policyStore.keys ++ [pub]
      else req.policyStore.keys
    let secret := req.clientSecret.getD genSecret
    let row : ClientRow :=
      ⟨req.clientId, hashSecret secret, genPriv,
        ⟨req.entityStore.url, entityKeys⟩, ⟨req.policyStore.url, policyKeys⟩⟩
    (db ++ [row],
      .created ⟨req.clientId, secret, ⟨pub⟩, row.entityStore, row.policyStore⟩)

/-! ### Concurrent registration, check-then-insert interleavings

Modelled from the spec §9: "naive 'does tenantId exist? if not, insert' is
inherently racy" — named there as the source defect, and recorded in
`My_README.md` (4 of 50 simultaneous creations for one clientId succeeded).
Each caller's registration is split into its two durable-store steps
(existence check, then insert), and a schedule interleaves the callers. -/

/-- Progress of one concurrent caller through check-then-insert. -/
inductive Phase where
  | start
  | checkedAbsent
  | done (success : Bool)
deriving DecidableEq, Repr

/-- One store-level step of the naive check-then-insert registration. -/
def raceStep (tid : String) (db : List String) (ph : Phase) : List String × Phase :=
  match ph with
  | .start => if tid ∈ db then (db, .done false) else (db, .checkedAbsent)
  | .checkedAbsent => (db ++ [tid], .done true)
  | .done b => (db, .done b)

/-- Run a schedule of caller indices over the shared store and the callers'
phases. -/
def runRace (tid : String) : List Nat → List String × List Phase → List String × List Phase
  | [], st => st
  | i :: sched, (db, phs) =>
    match phs.get? i with
    | none => runRace tid sched (db, phs)
    | some ph =>
      let s2 := raceStep tid db ph
      runRace tid sched (s2.1, phs.set i s2.2)

/-- Count how many callers finished successfully. -/
def successCount (phs : List Phase) : Nat :=
  phs.countP (fun ph => ph == .done true)

/-! ### Rate limiter

Modelled from the spec §4.2 and §9: a fixed-window counter keyed by caller
identity; a single atomic check-and-increment per call; once the window's
budget is exhausted every further call in that window is rejected until the
window rolls over. -/

/-- Rate-limiter counter state for one caller key: current window and the
number of admitted calls in it. -/
structure RLState where
  window : Nat
  count : Nat
deriving DecidableEq, Repr

/-- Modelled from the spec: one `admit` call in window `w` — reset the
counter on window rollover, then atomically check-and-increment against
the capacity.  Returns the new state and `true` for allow / `false` for
reject. -/
def admitReq (cap : Nat) (w : Nat) (st : RLState) : RLState × Bool :=
  let st2 := if w = st.window then st else ⟨w, 0⟩
  if st2.count < cap then (⟨w, st2.count + 1⟩, true) else (st2, false)

/-- Outcomes of `n` consecutive `admit` calls by one caller, all in window
`w`. -/
def admitMany (cap w : Nat) (st : RLState) : Nat → RLState × List Bool
  | 0 => (st, [])
  | n + 1 =>
    let s2 := admitReq cap w st
    let s3 := admitMany cap w s2.1 n
    (s3.1, s2.2 :: s3.2)

/-! ### Entity data store repository

Embedded directly from
`src/apps/armory/src/managed-data-store/persistence/repository/entity-data-store.repository.ts`. -/

/-- Row of the `entityDataStore` table. -/
structure EntityDataStoreRow where
  clientId : String
  version : Nat
  data : String
deriving DecidableEq, Repr

/-- `getLatestVersion`: Prisma `aggregate` of the maximum `version` over the
client's rows, with `data._max?.version || 0` — both a missing maximum
(no rows) and an actual maximum of `0` collapse to the sentinel `0`. -/
def getLatestVersion (db : List EntityDataStoreRow) (c : String) : Nat :=
  ((db.filter (fun r => r.clientId == c)).map (fun r => r.version)).foldr max 0

/-- `getLatestDataStore`: `if (!version) return null`, then `findFirst` on
`{ clientId, version }`, then `if (!dataStore) return null`. -/
def getLatestDataStore (db : List EntityDataStoreRow) (c : String) :
    Option EntityDataStoreRow :=
  let version := getLatestVersion db c
  if version = 0 then none
  else (db.filter (fun r => r.clientId == c && r.version == version)).head?

/-! ### Concrete sample data (used by the witnesses) -/

/-- Transfer from the test scenario "handles transfer with zero amount"
with a null USD rate entry. -/
def zeroUsd : Transfer :=
  ⟨"transfer-0", "client-a", 1, 0, [("fiat:USD", none)], ⟨0, 0⟩⟩

/-- One stored (encoded) transfer row for tenant "client-a". -/
def sampleStored : StoredTransfer := ⟨"t1", "client-a", 1, "5", [], ⟨0, 0⟩⟩

/-- Decoded form of `sampleStored`. -/
def sampleT : Transfer := ⟨"t1", "client-a", 1, 5, [], ⟨0, 0⟩⟩

/-- Data-store configuration with one caller-supplied signing key. -/
def sampleCfg : DataStoreCfg :=
  ⟨"http://127.0.0.1:9999/test-data-store", [⟨"caller-x", none⟩]⟩

/-- Registration request for tenant "tenant-a" with secret "s1". -/
def sampleReq : CreateClientReq := ⟨"tenant-a", some "s1", sampleCfg, sampleCfg, false⟩

/-- Registration request with the self-signed-data flag set. -/
def sampleReqSelf : CreateClientReq := ⟨"tenant-a", some "s1", sampleCfg, sampleCfg, true⟩

/-- Freshly generated signer private key, private scalar present. -/
def sampleGenKey : Jwk := ⟨"signer-x", some "signer-priv-d"⟩

/-- Client view produced by registering `sampleReq` on an empty store with
`sampleGenKey` as the generated signer key. -/
def sampleView : ClientView :=
  ⟨"tenant-a", "s1", ⟨⟨"signer-x", none⟩⟩,
    ⟨sampleCfg.url, sampleCfg.keys⟩, ⟨sampleCfg.url, sampleCfg.keys⟩⟩

/-- Entity-data-store table holding versions 0, 2, 1 for client "a" and a
row for client "b". -/
def sampleEds : List EntityDataStoreRow :=
  [⟨"a", 0, "d0"⟩, ⟨"a", 2, "d2"⟩, ⟨"a", 1, "d1"⟩, ⟨"b", 3, "d3"⟩]

end Armory

namespace Armory

/-! ### Codec round-trip lemmas -/

theorem natDigitsAux_ofDigits : ∀ (fuel n : Nat), n ≤ fuel →
    Nat.ofDigits 10 (natDigitsAux fuel n) = n := by
  intro fuel
  induction fuel with
  | zero => intro n hn; interval_cases n; simp [natDigitsAux, Nat.ofDigits]
  | succ f ih =>
    intro n hn
    match n with
    | 0 => simp [natDigitsAux, Nat.ofDigits]
    | m + 1 =>
      have hdiv : (m + 1) / 10 ≤ f := by
        have : (m + 1) / 10 < m + 1 := Nat.div_lt_self (Nat.succ_pos m) (by norm_num)
        omega
      simp only [natDigitsAux, Nat.ofDigits_cons, ih _ hdiv]
      omega

theorem ofDigits_natDigits (n : Nat) : Nat.ofDigits 10 (natDigits n) = n :=
  natDigitsAux_ofDigits n n le_rfl

theorem natDigitsAux_lt : ∀ (fuel n d : Nat), d ∈ natDigitsAux fuel n → d < 10 := by
  intro fuel
  induction fuel with
  | zero => intro n d hd; simp [natDigitsAux] at hd
  | succ f ih =>
    intro n d hd
    match n with
    | 0 => simp [natDigitsAux] at hd
    | m + 1 =>
      simp only [natDigitsAux, List.mem_cons] at hd
      rcases hd with h | h
      · omega
      · exact ih _ _ h

theorem natDigits_lt {n d : Nat} (h : d ∈ natDigits n) : d < 10 :=
  natDigitsAux_lt n n d h

theorem natDigits_ne_nil {n : Nat} (h : n ≠ 0) : natDigits n ≠ [] := by
  match n with
  | 0 => exact absurd rfl h
  | m + 1 => simp [natDigits, natDigitsAux]

theorem charDigit_digitChar {d : Nat} (h : d < 10) : charDigit (digitChar d) = d := by
  interval_cases d <;> decide

theorem isDigit_digitChar {d : Nat} (h : d < 10) : (digitChar d).isDigit = true := by
  interval_cases d <;> decide

theorem parseNatChars_natChars (n : Nat) : parseNatChars (natChars n) = some n := by
  by_cases h : n = 0
  · subst h; decide
  · unfold natChars parseNatChars
    rw [if_neg h]
    have hne : ((natDigits n).map digitChar).reverse ≠ [] := by
      simp [natDigits_ne_nil h]
    have hall : (((natDigits n).map digitChar).reverse).all Char.isDigit = true := by
      rw [List.all_eq_true]
      intro c hc
      rw [List.mem_reverse, List.mem_map] at hc
      obtain ⟨d, hdmem, rfl⟩ := hc
      exact isDigit_digitChar (natDigits_lt hdmem)
    rw [if_pos ⟨hne, hall⟩]
    congr 1
    rw [List.map_reverse, List.reverse_reverse, List.map_map]
    have heq : ((natDigits n).map (charDigit ∘ digitChar)) = natDigits n := by
      apply (List.map_congr_left ?_).trans (List.map_id _)
      intro d hdmem
      exact charDigit_digitChar (natDigits_lt hdmem)
    rw [heq, ofDigits_natDigits]

theorem natChars_ne_nil (n : Nat) : natChars n ≠ [] := by
  unfold natChars
  by_cases h : n = 0
  · simp [h]
  · simp [h, natDigits_ne_nil h]

theorem natChars_head_digit (n : Nat) (c : Char) (rest : List Char)
    (h : natChars n = c :: rest) : c.isDigit = true := by
  have hmem : c ∈ natChars n := by rw [h]; exact List.mem_cons_self c rest
  unfold natChars at hmem
  by_cases h0 : n = 0
  · simp [h0] at hmem; subst hmem; decide
  · rw [if_neg h0, List.mem_reverse, List.mem_map] at hmem
    obtain ⟨d, hdmem, rfl⟩ := hmem
    exact isDigit_digitChar (natDigits_lt hdmem)

theorem parseIntChars_intChars (x : Int) : parseIntChars (intChars x) = some x := by
  unfold intChars
  by_cases hx : x < 0
  · rw [if_pos hx]
    simp only [parseIntChars, if_pos, parseNatChars_natChars, Option.map_some',
      Option.some.injEq, Int.ofNat_eq_natCast]
    omega
  · rw [if_neg hx]
    cases hc : natChars x.natAbs with
    | nil => exact absurd hc (natChars_ne_nil _)
    | cons c rest =>
      have hcd : c.isDigit = true := natChars_head_digit _ _ _ hc
      have hcne : c ≠ '-' := by
        intro h; subst h; exact absurd hcd (by decide)
      rw [parseIntChars, if_neg hcne, ← hc, parseNatChars_natChars]
      simp only [Option.map_some', Option.some.injEq, Int.ofNat_eq_natCast]
      omega

theorem decodeInt_encodeInt (x : Int) : decodeInt (encodeInt x) = some x :=
  parseIntChars_intChars x

theorem decodeDec_encodeDec (d : Dec) : decodeDec (encodeDec d) = some d := by
  unfold decodeDec encodeDec
  simp only [decodeInt_encodeInt]
  show (match (some d.m : Option Int), parseNatChars (natChars d.e) with
    | some m, some e => some (⟨m, e⟩ : Dec)
    | _, _ => none) = some d
  rw [parseNatChars_natChars]

end Armory

namespace Armory

/-! ### Ledger round-trip lemmas -/

theorem decodeRateVal_encode (v : Option Dec) :
    decodeRateVal (v.map encodeDec) = some v := by
  cases v with
  | none => rfl
  | some d => simp [decodeRateVal, decodeDec_encodeDec]

theorem decodeRates_encode (rs : List (String × Option Dec)) :
    decodeRates (rs.map (fun p => (p.1, p.2.map encodeDec))) = some rs := by
  induction rs with
  | nil => rfl
  | cons p rest ih =>
    obtain ⟨k, v⟩ := p
    simp only [List.map_cons, decodeRates, decodeRateVal_encode, ih]

theorem decodeStored_encodeTransfer (t : Transfer) :
    decodeStored (encodeTransfer t) = some t := by
  unfold decodeStored encodeTransfer
  simp only [decodeInt_encodeInt, decodeRates_encode]

theorem decodeStored_clientId {s : StoredTransfer} {t : Transfer}
    (h : decodeStored s = some t) : t.clientId = s.clientId := by
  unfold decodeStored at h
  cases ha : decodeInt s.amount with
  | none => rw [ha] at h; exact absurd h (by simp)
  | some a =>
    cases hr : decodeRates s.rates with
    | none => rw [ha, hr] at h; exact absurd h (by simp)
    | some rs =>
      rw [ha, hr] at h
      simp only [Option.some.injEq] at h
      rw [← h]

/-! ### Stable sort lemmas -/

theorem filter_orderedInsert_key (x : Transfer) (l : List Transfer) (k : Int) :
    (List.orderedInsert byCreatedAt x l).filter
        (fun t => t.createdAt.epochMillis == k) =
      if x.createdAt.epochMillis == k then
        x :: l.filter (fun t => t.createdAt.epochMillis == k)
      else l.filter (fun t => t.createdAt.epochMillis == k) := by
  rw [List.orderedInsert_eq_take_drop, List.filter_append]
  by_cases hx : x.createdAt.epochMillis = k
  · have htake : (l.takeWhile fun b => decide ¬byCreatedAt x b).filter
        (fun t => t.createdAt.epochMillis == k) = [] := by
      rw [List.filter_eq_nil_iff]
      intro a ha
      have hpred := List.mem_takeWhile_imp ha
      simp only [decide_eq_true_eq, byCreatedAt] at hpred
      simp only [beq_iff_eq]
      omega
    rw [htake, List.filter_cons]
    have hxk : (x.createdAt.epochMillis == k) = true := beq_iff_eq.mpr hx
    rw [if_pos (by simp [hxk]), if_pos hxk]
    simp only [List.nil_append, List.cons.injEq, true_and]
    conv_rhs => rw [← List.takeWhile_append_dropWhile
      (fun b => decide ¬byCreatedAt x b) l]
    rw [List.filter_append, htake, List.nil_append]
  · have hxk : (x.createdAt.epochMillis == k) = false := by
      simp [hx]
    rw [if_neg (by simp [hxk]), List.filter_cons, if_neg (by simp [hxk])]
    rw [← List.filter_append, List.takeWhile_append_dropWhile]

theorem filter_insertionSort_key (l : List Transfer) (k : Int) :
    (List.insertionSort byCreatedAt l).filter
        (fun t => t.createdAt.epochMillis == k) =
      l.filter (fun t => t.createdAt.epochMillis == k) := by
  induction l with
  | nil => rfl
  | cons x xs ih =>
    rw [List.insertionSort, filter_orderedInsert_key, List.filter_cons]
    by_cases hx : x.createdAt.epochMillis = k
    · rw [if_pos (beq_iff_eq.mpr hx), if_pos (by simp [hx]), ih]
    · rw [if_neg (by simp [hx]), if_neg (by simp [hx]), ih]

end Armory

namespace Armory

/-! ### Maximum-fold lemmas -/

theorem le_foldrMax (l : List Nat) : ∀ v ∈ l, v ≤ l.foldr max 0 := by
  induction l with
  | nil => intro v hv; cases hv
  | cons a rest ih =>
    intro v hv
    rcases List.mem_cons.mp hv with rfl | hv
    · exact le_max_left _ _
    · exact le_trans (ih v hv) (le_max_right _ _)

theorem foldrMax_mem (l : List Nat) : l.foldr max 0 = 0 ∨ l.foldr max 0 ∈ l := by
  induction l with
  | nil => exact Or.inl rfl
  | cons a rest ih =>
    simp only [List.foldr_cons]
    rcases Nat.le_total a (rest.foldr max 0) with h | h
    · rw [max_eq_right h]
      rcases ih with h0 | hmem
      · exact Or.inl h0
      · exact Or.inr (List.mem_cons_of_mem a hmem)
    · rw [max_eq_left h]
      exact Or.inr (List.mem_cons_self a rest)

/-! ### Rate limiter window lemma -/

theorem admitMany_outcomes (cap w : Nat) : ∀ (n : Nat) (st : RLState),
    st.window = w →
    (admitMany cap w st n).2 =
      List.replicate (min n (cap - st.count)) true ++
        List.replicate (n - (cap - st.count)) false := by
  intro n
  induction n with
  | zero => intro st _; simp [admitMany]
  | succ m ih =>
    intro st hw
    unfold admitMany admitReq
    rw [if_pos hw.symm]
    by_cases hc : st.count < cap
    · rw [if_pos hc]
      have h2 := ih ⟨w, st.count + 1⟩ rfl
      simp only at h2
      simp only [h2]
      have h1 : min (m + 1) (cap - st.count) = min m (cap - (st.count + 1)) + 1 := by
        omega
      have h3 : (m + 1) - (cap - st.count) = m - (cap - (st.count + 1)) := by
        omega
      rw [h1, h3, List.replicate_succ, List.cons_append]
    · rw [if_neg hc]
      have h2 := ih st hw
      have h4 : cap - st.count = 0 := by omega
      simp only [h2, h4]
      simp [List.replicate_succ]

end Armory

namespace Armory

/-! ### Claim theorems -/

/-- C2: decoding the stored string-encoded form returns the original typed
value — `decode (encode x) = some x` for every arbitrary-precision integer
amount (including 0, −1 and the maximum representable value) and for every
decimal rate entry, and `track t` returns a transfer equal to its input. -/
theorem track_roundTrip :
    (∀ x : Int, decodeInt (encodeInt x) = some x) ∧
    (∀ d : Dec, decodeDec (encodeDec d) = some d) ∧
    (∀ (db : List StoredTransfer) (t : Transfer), (track db t).2 = some t) :=
  ⟨decodeInt_encodeInt, decodeDec_encodeDec,
    fun _ t => decodeStored_encodeTransfer t⟩

/-- C8: tracking a transfer with amount 0 and a null "fiat:USD" rate entry
stores and decodes the amount as 0 while the null rate entry remains null —
it is never coerced to 0. -/
theorem track_zero_amount_null_rate :
    (track [] zeroUsd).2 = some zeroUsd ∧
    (encodeTransfer zeroUsd).amount = "0" ∧
    (encodeTransfer zeroUsd).rates = [("fiat:USD", none)] ∧
    ((track [] zeroUsd).2.map (fun t => t.amount)) = some 0 ∧
    ((track [] zeroUsd).2.map (fun t => t.rates)) = some [("fiat:USD", none)] := by
  decide

/-- C9: `findByClientId` on a tenant with zero tracked transfers — including
identifiers never registered — returns the empty sequence. -/
theorem findByClientId_no_transfers (db : List StoredTransfer) (c : String)
    (h : ∀ s ∈ db, s.clientId ≠ c) : findByClientId db c = [] := by
  unfold findByClientId
  have hf : db.filter (fun s => s.clientId == c) = [] := by
    rw [List.filter_eq_nil_iff]
    intro s hs
    simpa using h s hs
  rw [hf]
  rfl

/-- Witness for C9 at a store holding one transfer of another tenant. -/
theorem findByClientId_no_transfers_witness :
    findByClientId [sampleStored] "non-existent-client" = [] :=
  findByClientId_no_transfers [sampleStored] "non-existent-client" (by decide)

/-- C3: `findByClientId` returns exactly the tenant's transfers, sorted
ascending by creation timestamp compared as absolute instants (the
recording offset never influences the order), with ties broken stably by
insertion order. -/
theorem findByClientId_ordered (db : List StoredTransfer) (c : String) :
    (∀ t ∈ findByClientId db c, t.clientId = c) ∧
    List.Perm (findByClientId db c)
      ((db.filter (fun s => s.clientId == c)).filterMap decodeStored) ∧
    List.Sorted byCreatedAt (findByClientId db c) ∧
    (∀ k : Int,
      (findByClientId db c).filter (fun t => t.createdAt.epochMillis == k) =
        ((db.filter (fun s => s.clientId == c)).filterMap decodeStored).filter
          (fun t => t.createdAt.epochMillis == k)) ∧
    (∀ (a b : Transfer) (o1 o2 : Int),
      byCreatedAt (withOffset a o1) (withOffset b o2) ↔ byCreatedAt a b) := by
  refine ⟨?_, ?_, ?_, ?_, ?_⟩
  · intro t ht
    rw [findByClientId, List.mem_insertionSort, List.mem_filterMap] at ht
    obtain ⟨s, hs, hdec⟩ := ht
    have hsf := List.mem_filter.mp hs
    have hsc : s.clientId = c := by simpa using hsf.2
    rw [decodeStored_clientId hdec, hsc]
  · exact List.perm_insertionSort byCreatedAt _
  · exact List.sorted_insertionSort byCreatedAt _
  · intro k
    exact filter_insertionSort_key _ k
  · intro a b o1 o2
    exact Iff.rfl

/-- Witness for C3 at a one-row store: the returned transfer belongs to the
tenant, ties filter stably, and the comparison ignores recording offsets. -/
theorem findByClientId_ordered_witness :
    sampleT.clientId = "client-a" ∧
    (findByClientId [sampleStored] "client-a").filter
        (fun t => t.createdAt.epochMillis == 0) =
      (([sampleStored].filter (fun s => s.clientId == "client-a")).filterMap
          decodeStored).filter (fun t => t.createdAt.epochMillis == 0) ∧
    (byCreatedAt (withOffset sampleT 60) (withOffset sampleT (-300)) ↔
      byCreatedAt sampleT sampleT) := by
  refine ⟨(findByClientId_ordered [sampleStored] "client-a").1 sampleT ?_,
    (findByClientId_ordered [sampleStored] "client-a").2.2.2.1 0,
    (findByClientId_ordered [sampleStored] "client-a").2.2.2.2 sampleT sampleT 60 (-300)⟩
  decide

end Armory

namespace Armory

/-- Characterization of `register` on a duplicate tenant identifier. -/
theorem register_mem (db : List ClientRow) (req : CreateClientReq)
    (g : String) (k : Jwk)
    (h : req.clientId ∈ db.map (fun r => r.clientId)) :
    register db req g k = (db, .alreadyExists "Client already exist") := by
  unfold register
  rw [if_pos h]

/-- Characterization of `register` on a fresh tenant identifier. -/
theorem register_not_mem (db : List ClientRow) (req : CreateClientReq)
    (g : String) (k : Jwk)
    (h : req.clientId ∉ db.map (fun r => r.clientId)) :
    register db req g k =
      (db ++ [⟨req.clientId, hashSecret (req.clientSecret.getD g), k,
        ⟨req.entityStore.url,
          if req.allowSelfSignedData then req.entityStore.keys ++ [publicJwk k]
          else req.entityStore.keys⟩,
        ⟨req.policyStore.url,
          if req.allowSelfSignedData then req.policyStore.keys ++ [publicJwk k]
          else req.policyStore.keys⟩⟩],
      .created ⟨req.clientId, req.clientSecret.getD g, ⟨publicJwk k⟩,
        ⟨req.entityStore.url,
          if req.allowSelfSignedData then req.entityStore.keys ++ [publicJwk k]
          else req.entityStore.keys⟩,
        ⟨req.policyStore.url,
          if req.allowSelfSignedData then req.policyStore.keys ++ [publicJwk k]
          else req.policyStore.keys⟩⟩) := by
  unfold register
  rw [if_neg h]

/-- C4: registering the same tenantId twice sequentially — the first call
returns the 201-class success carrying the caller-supplied secret (or the
generated one if omitted); the second fails 400-class with body message
"Client already exist". -/
theorem register_duplicate_sequential (db : List ClientRow) (req : CreateClientReq)
    (g1 g2 : String) (k1 k2 : Jwk)
    (h : req.clientId ∉ db.map (fun r => r.clientId)) :
    statusOf (register db req g1 k1).2 = 201 ∧
    (∃ v, (register db req g1 k1).2 = .created v ∧
      v.clientSecret = req.clientSecret.getD g1) ∧
    statusOf (register (register db req g1 k1).1 req g2 k2).2 = 400 ∧
    (register (register db req g1 k1).1 req g2 k2).2 =
      RegisterResult.alreadyExists "Client already exist" := by
  have e1 := register_not_mem db req g1 k1 h
  have hmem2 : req.clientId ∈ (register db req g1 k1).1.map (fun r => r.clientId) := by
    rw [e1]
    simp
  have e2 := register_mem (register db req g1 k1).1 req g2 k2 hmem2
  refine ⟨?_, ?_, ?_, ?_⟩
  · rw [e1]
    rfl
  · exact ⟨_, by rw [e1], rfl⟩
  · rw [e2]
    rfl
  · rw [e2]

/-- Witness for C4 starting from the empty store. -/
theorem register_duplicate_sequential_witness :
    statusOf (register [] sampleReq "gen-1" sampleGenKey).2 = 201 ∧
    statusOf (register (register [] sampleReq "gen-1" sampleGenKey).1
      sampleReq "gen-2" sampleGenKey).2 = 400 := by
  have h := register_duplicate_sequential [] sampleReq "gen-1" "gen-2"
    sampleGenKey sampleGenKey (by decide)
  exact ⟨h.1, h.2.2.1⟩

/-- C6: with `allowSelfSignedData` set, the persisted client's entity and
policy signing-key sets each equal the caller-supplied set with the fresh
signer's public key appended. -/
theorem register_selfSigned_appends (db : List ClientRow) (req : CreateClientReq)
    (g : String) (k : Jwk)
    (h1 : req.clientId ∉ db.map (fun r => r.clientId))
    (h2 : req.allowSelfSignedData = true) :
    ∃ row : ClientRow, (register db req g k).1 = db ++ [row] ∧
      row.entityStore.keys = req.entityStore.keys ++ [publicJwk k] ∧
      row.policyStore.keys = req.policyStore.keys ++ [publicJwk k] := by
  rw [register_not_mem db req g k h1]
  refine ⟨_, rfl, ?_, ?_⟩ <;> simp [h2]

/-- Witness for C6 on the empty store with the self-signed-data request. -/
theorem register_selfSigned_appends_witness :
    ∃ row : ClientRow, (register [] sampleReqSelf "gen-1" sampleGenKey).1 = [] ++ [row] ∧
      row.entityStore.keys = sampleReqSelf.entityStore.keys ++ [publicJwk sampleGenKey] ∧
      row.policyStore.keys = sampleReqSelf.policyStore.keys ++ [publicJwk sampleGenKey] :=
  register_selfSigned_appends [] sampleReqSelf "gen-1" sampleGenKey (by decide) rfl

/-- C7: a successful registration response renders the signer public-key
only — the response signer carries exactly the public key, whose private
JWK `d` component is absent. -/
theorem register_signer_public_only (db : List ClientRow) (req : CreateClientReq)
    (g : String) (k : Jwk) (v : ClientView)
    (h : (register db req g k).2 = .created v) :
    v.signer = ⟨publicJwk k⟩ ∧ v.signer.publicKey.d = none := by
  by_cases hm : req.clientId ∈ db.map (fun r => r.clientId)
  · rw [register_mem db req g k hm] at h
    exact absurd h (by simp)
  · rw [register_not_mem db req g k hm] at h
    simp only [RegisterResult.created.injEq] at h
    rw [← h]
    exact ⟨rfl, rfl⟩

/-- Witness for C7 at a concrete successful registration. -/
theorem register_signer_public_only_witness :
    sampleView.signer = ⟨publicJwk sampleGenKey⟩ ∧
    sampleView.signer.publicKey.d = none :=
  register_signer_public_only [] sampleReq "gen-1" sampleGenKey sampleView (by decide)

/-- C5: within one rate-limit window, the first `capacity` calls all return
allow and every further call returns reject; a call in a fresh window (after
rollover) is allowed again. -/
theorem rateLimiter_window (cap w : Nat) :
    (∀ n : Nat, (admitMany cap w ⟨w, 0⟩ n).2 =
      List.replicate (min n cap) true ++ List.replicate (n - cap) false) ∧
    (∀ (st : RLState) (w2 : Nat), w2 ≠ st.window → 0 < cap →
      (admitReq cap w2 st).2 = true) := by
  constructor
  · intro n
    have h := admitMany_outcomes cap w n ⟨w, 0⟩ rfl
    simpa using h
  · intro st w2 hne hcap
    unfold admitReq
    rw [if_neg hne]
    simp [hcap]

/-- Witness for C5: capacity 2, four calls in window 7, then a call in the
fresh window 8. -/
theorem rateLimiter_window_witness :
    (admitMany 2 7 ⟨7, 0⟩ 4).2 = [true, true, false, false] ∧
    (admitReq 2 8 ⟨7, 2⟩).2 = true := by
  constructor
  · rw [(rateLimiter_window 2 7).1 4]
    decide
  · exact (rateLimiter_window 2 7).2 ⟨7, 2⟩ 8 (by decide) (by decide)

/-- C1: the claim fails on the code.  Under the naive check-then-insert
registration (named the source defect in spec §9; `My_README.md` records 4
of 50 simultaneous creations succeeding for one clientId), the interleaving
check₀, check₁, insert₀, insert₁ of two callers for the same tenantId
produces two successful registrations and two committed rows. -/
theorem register_race_two_winners :
    successCount (runRace "tenant-a" [0, 1, 0, 1]
      ([], [Phase.start, Phase.start])).2 = 2 ∧
    (runRace "tenant-a" [0, 1, 0, 1] ([], [Phase.start, Phase.start])).1 =
      ["tenant-a", "tenant-a"] := by
  decide

/-- C10: `getLatestDataStore` returns null exactly when no row with version
greater than 0 exists for the client (the sentinel 0 of `version || 0` is
indistinguishable from a stored version 0, so such a row is never
returned), and otherwise returns a row of that client carrying the maximum
stored version. -/
theorem getLatestDataStore_spec (db : List EntityDataStoreRow) (c : String) :
    ((∀ r ∈ db, r.clientId = c → r.version = 0) → getLatestDataStore db c = none) ∧
    (∀ r, getLatestDataStore db c = some r →
      r.clientId = c ∧ 0 < r.version ∧ r.version = getLatestVersion db c ∧
      ∀ s ∈ db, s.clientId = c → s.version ≤ r.version) ∧
    ((∃ r ∈ db, r.clientId = c ∧ 0 < r.version) →
      ∃ r, getLatestDataStore db c = some r) := by
  refine ⟨?_, ?_, ?_⟩
  · intro h
    have hv : getLatestVersion db c = 0 := by
      rcases foldrMax_mem
          ((db.filter (fun r => r.clientId == c)).map (fun r => r.version)) with h0 | hmem
      · exact h0
      · rw [List.mem_map] at hmem
        obtain ⟨r, hr, hrv⟩ := hmem
        have hrf := List.mem_filter.mp hr
        show ((db.filter (fun r => r.clientId == c)).map (fun r => r.version)).foldr max 0 = 0
        rw [← hrv]
        exact h r hrf.1 (by simpa using hrf.2)
    simp [getLatestDataStore, hv]
  · intro r hr
    by_cases hv : getLatestVersion db c = 0
    · simp [getLatestDataStore, hv] at hr
    · rw [getLatestDataStore] at hr
      simp only [if_neg hv] at hr
      have hmem : r ∈ db.filter
          (fun s => s.clientId == c && s.version == getLatestVersion db c) := by
        cases hl : db.filter
            (fun s => s.clientId == c && s.version == getLatestVersion db c) with
        | nil => rw [hl] at hr; exact absurd hr (by simp)
        | cons a rest =>
          rw [hl] at hr
          simp only [List.head?_cons, Option.some.injEq] at hr
          rw [← hr]
          exact List.mem_cons_self a rest
      have hp := List.mem_filter.mp hmem
      have hc1 : r.clientId = c := by
        have := hp.2
        simp only [Bool.and_eq_true, beq_iff_eq] at this
        exact this.1
      have hc2 : r.version = getLatestVersion db c := by
        have := hp.2
        simp only [Bool.and_eq_true, beq_iff_eq] at this
        exact this.2
      refine ⟨hc1, by omega, hc2, ?_⟩
      intro s hs hsc
      have hsin : s.version ∈
          (db.filter (fun t => t.clientId == c)).map (fun t => t.version) :=
        List.mem_map.mpr ⟨s, List.mem_filter.mpr ⟨hs, by simpa using hsc⟩, rfl⟩
      have := le_foldrMax _ _ hsin
      rw [← getLatestVersion] at this
      omega
  · rintro ⟨r0, hr0, hc0, hv0⟩
    have hin : r0.version ∈
        (db.filter (fun t => t.clientId == c)).map (fun t => t.version) :=
      List.mem_map.mpr ⟨r0, List.mem_filter.mpr ⟨hr0, by simpa using hc0⟩, rfl⟩
    have hle : r0.version ≤ getLatestVersion db c := le_foldrMax _ _ hin
    have hvne : getLatestVersion db c ≠ 0 := by omega
    rcases foldrMax_mem
        ((db.filter (fun r => r.clientId == c)).map (fun r => r.version)) with h0 | hmem
    · exact absurd h0 hvne
    · rw [List.mem_map] at hmem
      obtain ⟨r1, hr1, hr1v⟩ := hmem
      have hr1f := List.mem_filter.mp hr1
      have hr1in : r1 ∈ db.filter
          (fun s => s.clientId == c && s.version == getLatestVersion db c) :=
        List.mem_filter.mpr ⟨hr1f.1, by
          simp only [Bool.and_eq_true, beq_iff_eq]
          exact ⟨by simpa using hr1f.2, hr1v⟩⟩
      rw [getLatestDataStore]
      simp only [if_neg hvne]
      cases hl : db.filter
          (fun s => s.clientId == c && s.version == getLatestVersion db c) with
      | nil => rw [hl] at hr1in; cases hr1in
      | cons a rest => exact ⟨a, by simp⟩

/-- Witness for C10: a client whose only row has version 0 yields null; a
client with versions 0, 2, 1 yields a row. -/
theorem getLatestDataStore_spec_witness :
    getLatestDataStore [⟨"a", 0, "d0"⟩] "a" = none ∧
    (∃ r, getLatestDataStore sampleEds "a" = some r) := by
  constructor
  · exact (getLatestDataStore_spec [⟨"a", 0, "d0"⟩] "a").1 (by decide)
  · exact (getLatestDataStore_spec sampleEds "a").2.2 ⟨⟨"a", 2, "d2"⟩, by decide, rfl, by decide⟩

end Armory
